import Mathlib

/-!
Verification of the IntelliPort backport extension (src/extension.ts).

The development shallowly embeds the three functions the claims are about:

* `modifyFileWithPatch` — replace a 1-based inclusive line range of a file
  with a re-indented patch block (source lines 82–110);
* `fetchTags` — paginated tag listing that stops at the first empty or
  non-array page (source lines 36–46);
* `checkoutTag` — git checkout with the single "dubious ownership"
  remediation-and-retry path (source lines 51–77).

File contents are embedded as `List Char`; splitting on the regular
expression pattern backslash-r-optional backslash-n is embedded by
`splitLines`, and the JavaScript string method trimStart by dropping the
JavaScript whitespace set.
-/

/-- The JavaScript whitespace set used by the string method trimStart:
tab, LF, VT, FF, CR, space, NBSP, BOM and the Unicode space separators. -/
def isJSWhitespace (c : Char) : Bool :=
  c = ' ' || c = '\t' || c = '\n' || c = '\r' ||
  c.val = 11 || c.val = 12 || c.val = 0xA0 || c.val = 0xFEFF ||
  c.val = 0x1680 || (0x2000 ≤ c.val && c.val ≤ 0x200A) ||
  c.val = 0x2028 || c.val = 0x2029 || c.val = 0x202F || c.val = 0x205F ||
  c.val = 0x3000

/-- Push a character onto the head of the first chunk (helper for
`splitLines`); an empty chunk list yields the singleton line. -/
def consHead (c : Char) : List (List Char) → List (List Char)
  | [] => [[c]]
  | l :: ls => (c :: l) :: ls

/-- Embedding of the JavaScript split on the pattern carriage-return-optional
then newline: a CRLF pair or a bare LF separates lines; a bare CR is an
ordinary character.  Splitting the empty content yields one empty line,
and content ending in a newline yields a trailing empty line, exactly as
in JavaScript. -/
def splitLines : List Char → List (List Char)
  | [] => [[]]
  | '\n' :: rest => [] :: splitLines rest
  | '\r' :: '\n' :: rest => [] :: splitLines rest
  | c :: rest => consHead c (splitLines rest)

/-- Embedding of Array.prototype.join with separator a single newline. -/
def joinNL : List (List Char) → List Char
  | [] => []
  | [l] => l
  | l :: ls => l ++ '\n' :: joinNL ls

/-- Embedding of the JavaScript string method trimStart. -/
def trimStart (l : List Char) : List Char :=
  l.dropWhile isJSWhitespace

/-- The leading whitespace run of a line. -/
def leadingWS (l : List Char) : List Char :=
  l.takeWhile isJSWhitespace

/-- Source line 95–96: the indentation string computed for the first line of
the range, a run of spaces whose count is the length of the line minus the
length of its trimStart. -/
def indentOf (l : List Char) : List Char :=
  List.replicate (l.length - (trimStart l).length) ' '

/-- Source lines 98–101: split the patch on the newline pattern, prefix the
indentation to every line and re-join with bare newlines. -/
def reindent (indent : List Char) (patch : List Char) : List Char :=
  joinNL ((splitLines patch).map (fun l => indent ++ l))

/-- The error message thrown on a range violation (source line 92). -/
def invalidRangeMsg : String := "Invalid line range"

/-- Embedding of `modifyFileWithPatch` (source lines 82–110) as a function
from the current file content to either the error thrown or the new content
written back. -/
def modifyFileWithPatch (content : List Char) (startLine endLine : Int)
    (patch : List Char) : Except String (List Char) :=
  if startLine ≤ 0 ∨ endLine > ((splitLines content).length : Int) ∨
      startLine > endLine then
    Except.error invalidRangeMsg
  else
    Except.ok (joinNL ((splitLines content).take (startLine.toNat - 1)
      ++ reindent (indentOf ((splitLines content).getD (startLine.toNat - 1) []))
          patch
        :: (splitLines content).drop endLine.toNat))

/-- The content of the file after the call: the written content on success,
the untouched original on error (the throw happens before the write). -/
def fileAfterPatch (content : List Char) (startLine endLine : Int)
    (patch : List Char) : List Char :=
  match modifyFileWithPatch content startLine endLine patch with
  | Except.ok c => c
  | Except.error _ => content

/-- C1: splitting on the newline convention (bare LF or CRLF, with a file
ending in a newline contributing a trailing empty line) gives the line count
n; whenever startLine ≤ 0, or endLine > n, or startLine > endLine, the
patcher fails with the invalid-range error and the file content is
byte-for-byte unchanged. -/
theorem C1_invalid_range_rejected (content patch : List Char) (s e : Int)
    (h : s ≤ 0 ∨ e > ((splitLines content).length : Int) ∨ s > e) :
    modifyFileWithPatch content s e patch = Except.error invalidRangeMsg ∧
    fileAfterPatch content s e patch = content := by
  constructor
  · unfold modifyFileWithPatch
    rw [if_pos h]
  · unfold fileAfterPatch modifyFileWithPatch
    rw [if_pos h]

theorem C1_invalid_range_rejected_witness :
    modifyFileWithPatch ("a\nb".toList) 0 1 ("x".toList) =
      Except.error invalidRangeMsg ∧
    fileAfterPatch ("a\nb".toList) 0 1 ("x".toList) = "a\nb".toList :=
  C1_invalid_range_rejected ("a\nb".toList) ("x".toList) 0 1
    (Or.inl (by decide))

/-- On a valid range the patcher returns the splice of the prefix lines, the
single re-indented block and the suffix lines. -/
theorem modify_valid (content patch : List Char) (s e : Int)
    (h1 : 1 ≤ s) (h2 : s ≤ e)
    (h3 : e ≤ ((splitLines content).length : Int)) :
    modifyFileWithPatch content s e patch =
      Except.ok (joinNL ((splitLines content).take (s.toNat - 1)
        ++ reindent (indentOf ((splitLines content).getD (s.toNat - 1) []))
            patch
          :: (splitLines content).drop e.toNat)) := by
  unfold modifyFileWithPatch
  rw [if_neg (by omega)]

/-- C2: on a valid range [s,e] of a file with lines L1..Ln the patcher
writes back exactly L1..L(s-1), then the single re-indented patch block as
one element, then L(e+1)..Ln, joined with a single newline separator; the
case s = e replaces one line by the possibly multi-line block. -/
theorem C2_splice (content patch : List Char) (s e : Int)
    (h1 : 1 ≤ s) (h2 : s ≤ e)
    (h3 : e ≤ ((splitLines content).length : Int)) :
    modifyFileWithPatch content s e patch =
      Except.ok (joinNL ((splitLines content).take (s.toNat - 1)
        ++ reindent (indentOf ((splitLines content).getD (s.toNat - 1) []))
            patch
          :: (splitLines content).drop e.toNat)) :=
  modify_valid content patch s e h1 h2 h3

theorem C2_splice_witness :
    modifyFileWithPatch ("a\nb\nc\nd\ne".toList) 2 3 ("X\nY".toList) =
      Except.ok ("a\nX\nY\nd\ne".toList) :=
  (C2_splice ("a\nb\nc\nd\ne".toList) ("X\nY".toList) 2 3
      (by decide) (by decide) (by decide)).trans (by rfl)

/-- A list all of whose members equal a is the replicate of its length. -/
theorem replicate_of_all_eq {α : Type} {a : α} :
    ∀ (l : List α), (∀ b ∈ l, b = a) → List.replicate l.length a = l
  | [], _ => rfl
  | b :: l, h => by
    simp only [List.length_cons, List.replicate_succ]
    rw [replicate_of_all_eq l (fun x hx => h x (List.mem_cons_of_mem _ hx)),
      h b (List.mem_cons_self b l)]

/-- The count computed on source line 96 is the length of the leading
whitespace run of the line. -/
theorem indentOf_eq_replicate (l : List Char) :
    indentOf l = List.replicate (leadingWS l).length ' ' := by
  have h := congrArg List.length (List.takeWhile_append_dropWhile isJSWhitespace l)
  simp only [List.length_append] at h
  unfold indentOf trimStart leadingWS
  congr 1
  omega

/-- When the leading whitespace run of the line consists only of spaces, the
computed indentation is exactly that run. -/
theorem indentOf_eq_leadingWS (l : List Char)
    (h : ∀ c ∈ leadingWS l, c = ' ') : indentOf l = leadingWS l := by
  rw [indentOf_eq_replicate, replicate_of_all_eq _ h]

/-- A chunk list without newlines splits into itself as a single line. -/
theorem splitLines_single (l : List Char) (h : '\n' ∉ l) :
    splitLines l = [l] := by
  induction l using splitLines.induct with
  | case1 => rfl
  | case2 rest ih => simp at h
  | case3 rest ih => simp at h
  | case4 c rest h1 h2 ih =>
    have hrest : '\n' ∉ rest := fun hm => h (List.mem_cons_of_mem _ hm)
    rw [splitLines.eq_4 c rest h1 h2, ih hrest]
    rfl

/-- Re-indenting a patch without newlines just prefixes the indentation. -/
theorem reindent_single (indent p : List Char) (h : '\n' ∉ p) :
    reindent indent p = indent ++ p := by
  rw [reindent, splitLines_single p h]
  rfl

/-- C3 fails as stated: with the tab-indented line as leading run W, the
code prefixes a space, not the tab, so the patched line differs from W
followed by the patch line. -/
theorem C3_counterexample :
    leadingWS ("\tx".toList) = '\t' :: [] ∧
    modifyFileWithPatch ("\tx".toList) 1 1 ("y".toList) =
      Except.ok (' ' :: 'y' :: []) ∧
    (' ' :: 'y' :: []) ≠ '\t' :: 'y' :: [] :=
  ⟨rfl, rfl, by decide⟩

/-- C3 amended: for every file and every patch on a valid range, the
patcher prefixes a run of space characters of the same character length as
the leading whitespace run W of the line at startLine to every line of the
patch, blank lines included — whatever characters W holds, a tab among them
included; and when W consists only of spaces this prefix is exactly the
run W on every patch line. -/
theorem C3_amended_exact_run (content patch : List Char) (s e : Int)
    (h1 : 1 ≤ s) (h2 : s ≤ e)
    (h3 : e ≤ ((splitLines content).length : Int)) :
    modifyFileWithPatch content s e patch =
      Except.ok (joinNL ((splitLines content).take (s.toNat - 1)
        ++ joinNL ((splitLines patch).map
            (fun l => List.replicate
              (leadingWS ((splitLines content).getD (s.toNat - 1) [])).length
              ' ' ++ l))
          :: (splitLines content).drop e.toNat)) ∧
    ((∀ c ∈ leadingWS ((splitLines content).getD (s.toNat - 1) []),
        c = ' ') →
      modifyFileWithPatch content s e patch =
        Except.ok (joinNL ((splitLines content).take (s.toNat - 1)
          ++ joinNL ((splitLines patch).map
              (fun l =>
                leadingWS ((splitLines content).getD (s.toNat - 1) []) ++ l))
            :: (splitLines content).drop e.toNat))) := by
  constructor
  · rw [modify_valid content patch s e h1 h2 h3, reindent,
      indentOf_eq_replicate]
  · intro hW
    rw [modify_valid content patch s e h1 h2 h3, reindent,
      indentOf_eq_leadingWS _ hW]

theorem C3_amended_exact_run_witness :
    modifyFileWithPatch ("\tx\ny".toList) 1 1 ("p\nq".toList) =
      Except.ok (" p\n q\ny".toList) ∧
    modifyFileWithPatch ("  a\nb".toList) 1 1 ("p\n\nq".toList) =
      Except.ok ("  p\n  \n  q\nb".toList) :=
  ⟨((C3_amended_exact_run ("\tx\ny".toList) ("p\nq".toList) 1 1
      (by decide) (by decide) (by decide)).1).trans (by rfl),
    ((C3_amended_exact_run ("  a\nb".toList) ("p\n\nq".toList) 1 1
      (by decide) (by decide) (by decide)).2 (by decide)).trans (by rfl)⟩

/-- C9: the indentation prefixed to every patch line consists solely of
space characters, as many as the character length of the leading whitespace
run of the line at startLine; a tab-indented line therefore yields space
prefixes, not tabs. -/
theorem C9_space_run_length (content patch : List Char) (s e : Int)
    (h1 : 1 ≤ s) (h2 : s ≤ e)
    (h3 : e ≤ ((splitLines content).length : Int)) :
    modifyFileWithPatch content s e patch =
      Except.ok (joinNL ((splitLines content).take (s.toNat - 1)
        ++ joinNL ((splitLines patch).map
            (fun l => List.replicate
              (leadingWS ((splitLines content).getD (s.toNat - 1) [])).length
              ' ' ++ l))
          :: (splitLines content).drop e.toNat)) := by
  rw [modify_valid content patch s e h1 h2 h3, reindent, indentOf_eq_replicate]

theorem C9_space_run_length_witness :
    modifyFileWithPatch ("\tz\nw".toList) 1 1 ("a\nb".toList) =
      Except.ok (" a\n b\nw".toList) :=
  (C9_space_run_length ("\tz\nw".toList) ("a\nb".toList) 1 1
      (by decide) (by decide) (by decide)).trans (by rfl)

/-- If the patcher succeeds the file afterwards holds the written content. -/
theorem fileAfterPatch_ok {content patch : List Char} {s e : Int}
    {r : List Char}
    (h : modifyFileWithPatch content s e patch = Except.ok r) :
    fileAfterPatch content s e patch = r := by
  unfold fileAfterPatch
  rw [h]

/-- No line produced by splitting contains a newline character. -/
theorem splitLines_no_nl (cs : List Char) :
    ∀ l ∈ splitLines cs, '\n' ∉ l := by
  induction cs using splitLines.induct with
  | case1 =>
    intro l hl
    rw [List.mem_singleton.mp hl]
    simp
  | case2 rest ih =>
    intro l hl
    rcases List.mem_cons.mp hl with h | h
    · rw [h]; simp
    · exact ih l h
  | case3 rest ih =>
    intro l hl
    rcases List.mem_cons.mp hl with h | h
    · rw [h]; simp
    · exact ih l h
  | case4 c rest h1 h2 ih =>
    intro l hl
    rw [splitLines.eq_4 c rest h1 h2] at hl
    cases hM : splitLines rest with
    | nil =>
      rw [hM] at hl
      rw [List.mem_singleton.mp hl]
      intro hmem
      rcases List.mem_cons.mp hmem with h | h
      · exact h1 h.symm
      · simp at h
    | cons m ms =>
      rw [hM] at hl
      rcases List.mem_cons.mp hl with h | h
      · rw [h]
        intro hmem
        rcases List.mem_cons.mp hmem with h' | h'
        · exact h1 h'.symm
        · exact ih m (hM ▸ List.mem_cons_self m ms) h'
      · exact ih l (hM ▸ List.mem_cons_of_mem m h)

/-- Splitting a list at an index strictly below its length and re-inserting
the element there reassembles the list. -/
theorem take_getD_cons_drop {α : Type} (d : α) :
    ∀ (L : List α) (i : Nat), i < L.length →
      L.take i ++ L.getD i d :: L.drop (i + 1) = L
  | [], i, h => absurd h (by simp)
  | a :: L, 0, _ => rfl
  | a :: L, i + 1, h => by
    simp only [List.take_succ_cons, List.getD_cons_succ, List.drop_succ_cons,
      List.cons_append]
    rw [take_getD_cons_drop d L i (by simpa using h)]

/-- C6 fails as stated: on a line indented by two spaces, an empty patch
text produces a line holding the two-space indentation, not an empty
line. -/
theorem C6_counterexample :
    modifyFileWithPatch ("  a".toList) 1 1 [] =
      Except.ok (' ' :: ' ' :: []) ∧
    (' ' :: ' ' :: []) ≠ ([] : List Char) :=
  ⟨rfl, by decide⟩

/-- C6 amended: a patch without internal newlines is still indented and
spliced as the single line indentation-plus-patch; when every patch
character is whitespace that line is pure whitespace, and an empty patch
yields exactly the indentation (an empty line only when the indentation is
empty). -/
theorem C6_amended_whitespace_patch (content patch : List Char) (s e : Int)
    (h1 : 1 ≤ s) (h2 : s ≤ e)
    (h3 : e ≤ ((splitLines content).length : Int))
    (hnl : '\n' ∉ patch) :
    modifyFileWithPatch content s e patch =
      Except.ok (joinNL ((splitLines content).take (s.toNat - 1)
        ++ (indentOf ((splitLines content).getD (s.toNat - 1) []) ++ patch)
          :: (splitLines content).drop e.toNat)) ∧
    ((∀ c ∈ patch, isJSWhitespace c = true) →
      ∀ c ∈ indentOf ((splitLines content).getD (s.toNat - 1) []) ++ patch,
        isJSWhitespace c = true) ∧
    (patch = [] →
      indentOf ((splitLines content).getD (s.toNat - 1) []) ++ patch =
        indentOf ((splitLines content).getD (s.toNat - 1) [])) := by
  refine ⟨?_, ?_, ?_⟩
  · rw [modify_valid content patch s e h1 h2 h3,
      reindent_single _ patch hnl]
  · intro hws c hc
    rcases List.mem_append.mp hc with h | h
    · rw [indentOf_eq_replicate] at h
      rw [List.eq_of_mem_replicate h]
      rfl
    · exact hws c h
  · intro hp
    rw [hp, List.append_nil]

theorem C6_amended_whitespace_patch_witness :
    modifyFileWithPatch ("  a\nb".toList) 1 1 (" \t".toList) =
      Except.ok ("   \t\nb".toList) ∧
    (∀ c ∈ "   \t".toList, isJSWhitespace c = true) :=
  ⟨((C6_amended_whitespace_patch ("  a\nb".toList) (" \t".toList) 1 1
      (by decide) (by decide) (by decide) (by decide)).1).trans (by rfl),
    ((C6_amended_whitespace_patch ("  a\nb".toList) (" \t".toList) 1 1
      (by decide) (by decide) (by decide) (by decide)).2.1 (by decide))⟩

/-- C4 fails as stated: for the CRLF file the written content is joined
with bare newlines, so replacing line 1 by its own trimmed content does not
round-trip the file. -/
theorem C4_counterexample :
    fileAfterPatch ("a\r\nb".toList) 1 1
      (trimStart ((splitLines ("a\r\nb".toList)).getD 0 [])) =
      "a\nb".toList ∧
    "a\nb".toList ≠ "a\r\nb".toList :=
  ⟨rfl, by decide⟩

/-- C4 amended: replacing line k by its content with the leading whitespace
stripped round-trips the file provided the file is already joined by bare
newlines (re-joining its split is the identity) and the leading whitespace
run of line k consists only of spaces, so that re-indentation restores
it. -/
theorem C4_amended_roundtrip (content : List Char) (k : Nat)
    (h1 : 1 ≤ k) (h2 : k ≤ (splitLines content).length)
    (hjoin : joinNL (splitLines content) = content)
    (hsp : ∀ c ∈ leadingWS ((splitLines content).getD (k - 1) []), c = ' ') :
    fileAfterPatch content (k : Int) (k : Int)
      (trimStart ((splitLines content).getD (k - 1) [])) = content := by
  have hn : k - 1 < (splitLines content).length := by omega
  have hmem : (splitLines content).getD (k - 1) [] ∈ splitLines content := by
    rw [List.getD_eq_getElem _ _ hn]
    exact List.getElem_mem hn
  have hnl : '\n' ∉ trimStart ((splitLines content).getD (k - 1) []) :=
    fun hm => splitLines_no_nl content _ hmem (List.dropWhile_sublist _ |>.subset hm)
  have ht : (k : Int).toNat = k := by omega
  rw [fileAfterPatch_ok (modify_valid content _ (k : Int) (k : Int)
      (by omega) (by omega) (by omega)), ht,
    reindent_single _ _ hnl, indentOf_eq_leadingWS _ hsp]
  unfold leadingWS trimStart
  rw [List.takeWhile_append_dropWhile]
  have hk : k = (k - 1) + 1 := by omega
  have hk2 : k - 1 + 1 - 1 = k - 1 := by omega
  rw [hk, hk2, take_getD_cons_drop ([] : List Char) (splitLines content) (k - 1) hn]
  exact hjoin

theorem C4_amended_roundtrip_witness :
    fileAfterPatch ("  x\ny".toList) ((1 : Nat) : Int) ((1 : Nat) : Int)
      (trimStart ((splitLines ("  x\ny".toList)).getD 0 [])) =
      "  x\ny".toList :=
  C4_amended_roundtrip ("  x\ny".toList) 1 (by decide) (by decide)
    (by rfl) (by decide)

/-- Does the first list start with the second (helper for substring
search)? -/
def listStartsWith : List Char → List Char → Bool
  | _, [] => true
  | [], _ :: _ => false
  | c :: s, p :: ps => c = p && listStartsWith s ps

/-- Embedding of the JavaScript string method includes: does the second
list occur contiguously inside the first? -/
def listContainsSub : List Char → List Char → Bool
  | [], pat => pat.isEmpty
  | c :: rest, pat => listStartsWith (c :: rest) pat || listContainsSub rest pat

/-- A character of a newline-join is the separator or comes from one of the
joined chunks. -/
theorem mem_joinNL {c : Char} :
    ∀ (ls : List (List Char)), c ∈ joinNL ls → c = '\n' ∨ ∃ l ∈ ls, c ∈ l
  | [], h => absurd h (by simp [joinNL])
  | [l], h => Or.inr ⟨l, List.mem_singleton_self l, by simpa [joinNL] using h⟩
  | l :: l2 :: ls, h => by
    have hj : joinNL (l :: l2 :: ls) = l ++ '\n' :: joinNL (l2 :: ls) := rfl
    rw [hj] at h
    rcases List.mem_append.mp h with h | h
    · exact Or.inr ⟨l, List.mem_cons_self _ _, h⟩
    · rcases List.mem_cons.mp h with h | h
      · exact Or.inl h
      · rcases mem_joinNL (l2 :: ls) h with h | ⟨l', hl', hcl⟩
        · exact Or.inl h
        · exact Or.inr ⟨l', List.mem_cons_of_mem _ hl', hcl⟩

/-- C5 fails as stated: in the CRLF file whose first line ends with a bare
carriage return, patching line 2 leaves a carriage-return-newline pair in
the output, so the output does not hold bare newlines only. -/
theorem C5_counterexample :
    listContainsSub ("a\r\r\nb".toList) ('\r' :: '\n' :: []) = true ∧
    modifyFileWithPatch ("a\r\r\nb".toList) 2 2 ("c".toList) =
      Except.ok ("a\r\nc".toList) ∧
    listContainsSub ("a\r\nc".toList) ('\r' :: '\n' :: []) = true :=
  ⟨rfl, rfl, rfl⟩

/-- C5 amended: lines are rejoined with a single bare newline; when no line
of the split file and no line of the split patch retains a carriage return
(the file may still use CRLF endings, which the split consumes), the
written content holds no carriage return at all, hence only bare newline
line endings. -/
theorem C5_amended_lf_only (content patch : List Char) (s e : Int)
    (h1 : 1 ≤ s) (h2 : s ≤ e)
    (h3 : e ≤ ((splitLines content).length : Int))
    (hc : ∀ l ∈ splitLines content, '\r' ∉ l)
    (hp : ∀ l ∈ splitLines patch, '\r' ∉ l)
    (r : List Char)
    (hr : modifyFileWithPatch content s e patch = Except.ok r) :
    '\r' ∉ r := by
  rw [modify_valid content patch s e h1 h2 h3] at hr
  injection hr with hr
  subst hr
  intro hmem
  rcases mem_joinNL _ hmem with h | ⟨l, hl, hcl⟩
  · exact absurd h (by decide)
  · rcases List.mem_append.mp hl with h | h
    · exact hc l (List.mem_of_mem_take h) hcl
    · rcases List.mem_cons.mp h with h | h
      · subst h
        unfold reindent at hcl
        rcases mem_joinNL _ hcl with h | ⟨l', hl', hcl'⟩
        · exact absurd h (by decide)
        · rcases List.mem_map.mp hl' with ⟨pl, hpl, hpl2⟩
          subst hpl2
          rcases List.mem_append.mp hcl' with h | h
          · rw [indentOf_eq_replicate] at h
            exact absurd (List.eq_of_mem_replicate h) (by decide)
          · exact hp pl hpl h
      · exact hc l (List.mem_of_mem_drop h) hcl

theorem C5_amended_lf_only_witness :
    ('\r' ∉ "c\nd\nb".toList) :=
  C5_amended_lf_only ("a\nb".toList) ("c\nd".toList) 1 1
    (by decide) (by decide) (by decide) (by decide) (by decide)
    ("c\nd\nb".toList) (by rfl)

/-- The parsed JSON body of one page response: an array (modelled by the
list of the name fields of its elements) or some non-array value. -/
inductive PageResp
  | arr : List String → PageResp
  | nonArr : PageResp

/-- Source line 42, the loop exit test: the parsed body is not an array or
is an empty array. -/
def pageIsStop : PageResp → Bool
  | PageResp.arr l => l.isEmpty
  | PageResp.nonArr => true

/-- Source line 43: the name fields pushed for an array page. -/
def pageNames : PageResp → List String
  | PageResp.arr l => l
  | PageResp.nonArr => []

/-- Embedding of the loop of `fetchTags` (source lines 38–44), run from a
given page number with explicit fuel bounding the number of iterations
observed; it returns the accumulated tag names together with the list of
page numbers requested, or none when the fuel runs out first. -/
def fetchTagsLoop (pages : Nat → PageResp) :
    Nat → Nat → Option (List String × List Nat)
  | 0, _ => none
  | fuel + 1, page =>
    if pageIsStop (pages page) then some ([], [page])
    else
      match fetchTagsLoop pages fuel (page + 1) with
      | none => none
      | some (ts, qs) => some (pageNames (pages page) ++ ts, page :: qs)

/-- Embedding of `fetchTags` (source lines 36–46): the loop starts at page
1. -/
def fetchTags (pages : Nat → PageResp) (fuel : Nat) :
    Option (List String × List Nat) :=
  fetchTagsLoop pages fuel 1

/-- The concatenation, page by page, of the names of n pages starting at
page p. -/
def concatNames (pages : Nat → PageResp) : Nat → Nat → List String
  | _, 0 => []
  | p, n + 1 => pageNames (pages p) ++ concatNames pages (p + 1) n

/-- The n consecutive page numbers starting at p. -/
def pageList : Nat → Nat → List Nat
  | _, 0 => []
  | p, n + 1 => p :: pageList (p + 1) n

/-- When page k is the first stopping page at or after page p and the fuel
suffices, the loop returns the names of pages p..k-1 in order and requests
exactly pages p..k. -/
theorem fetchTagsLoop_spec (pages : Nat → PageResp) (k : Nat)
    (hstop : pageIsStop (pages k) = true) :
    ∀ (fuel p : Nat), p ≤ k → k - p < fuel →
    (∀ i, p ≤ i → i < k → pageIsStop (pages i) = false) →
    fetchTagsLoop pages fuel p =
      some (concatNames pages p (k - p), pageList p (k - p + 1)) := by
  intro fuel
  induction fuel with
  | zero =>
    intro p hpk hfuel hbef
    omega
  | succ fuel ih =>
    intro p hpk hfuel hbef
    by_cases hpk2 : p = k
    · subst hpk2
      simp only [fetchTagsLoop, hstop, if_true, Nat.sub_self]
      rfl
    · have hplt : p < k := by omega
      have hstopp : pageIsStop (pages p) = false := hbef p (Nat.le_refl p) hplt
      simp only [fetchTagsLoop, hstopp, Bool.false_eq_true, if_false]
      rw [ih (p + 1) (by omega) (by omega)
        (fun i hi1 hi2 => hbef i (by omega) hi2)]
      have hc : k - p = (k - (p + 1)) + 1 := by omega
      rw [hc]
      rfl

/-- C7: the tag fetch requests pages from 1 upward, stops after the first
page whose response is an empty array and returns the concatenation of the
tag names of all earlier pages in response order, page by page; with pages
1..k-1 non-empty arrays and page k the empty array it requests exactly
pages 1..k. -/
theorem C7_pagination_stops (pages : Nat → PageResp) (k fuel : Nat)
    (hk : 1 ≤ k) (hfuel : k ≤ fuel)
    (hbefore : ∀ i, 1 ≤ i → i < k →
      ∃ l, pages i = PageResp.arr l ∧ l ≠ [])
    (hstop : pages k = PageResp.arr []) :
    fetchTags pages fuel = some (concatNames pages 1 (k - 1), pageList 1 k) := by
  have hb : ∀ i, 1 ≤ i → i < k → pageIsStop (pages i) = false := by
    intro i hi1 hi2
    rcases hbefore i hi1 hi2 with ⟨l, hl, hne⟩
    rw [hl]
    cases l with
    | nil => exact absurd rfl hne
    | cons a as => rfl
  have hs : pageIsStop (pages k) = true := by rw [hstop]; rfl
  have h := fetchTagsLoop_spec pages k hs fuel 1 hk (by omega) hb
  rw [fetchTags, h]
  have hk1 : k - 1 + 1 = k := by omega
  rw [hk1]

theorem C7_pagination_stops_witness :
    fetchTags
      (fun p => match p with
        | 1 => PageResp.arr ("v1" :: "v2" :: [])
        | 2 => PageResp.arr ("v3" :: [])
        | 3 => PageResp.arr ("v4" :: "v5" :: [])
        | _ => PageResp.arr []) 10 =
      some ("v1" :: "v2" :: "v3" :: "v4" :: "v5" :: [], 1 :: 2 :: 3 :: 4 :: []) :=
  (C7_pagination_stops
    (fun p => match p with
      | 1 => PageResp.arr ("v1" :: "v2" :: [])
      | 2 => PageResp.arr ("v3" :: [])
      | 3 => PageResp.arr ("v4" :: "v5" :: [])
      | _ => PageResp.arr []) 4 10 (by decide) (by decide)
    (fun i hi1 hi2 => by
      interval_cases i
      · exact ⟨"v1" :: "v2" :: [], rfl, by decide⟩
      · exact ⟨"v3" :: [], rfl, by decide⟩
      · exact ⟨"v4" :: "v5" :: [], rfl, by decide⟩)
    rfl).trans (by rfl)

/-- C10: when some page parses as a non-array value and all earlier pages
are non-empty arrays, the fetch stops at that page and returns the names
accumulated from the earlier pages as an ordinary successful value — the
non-array body only breaks the loop, it raises nothing. -/
theorem C10_non_array_stops (pages : Nat → PageResp) (k fuel : Nat)
    (hk : 1 ≤ k) (hfuel : k ≤ fuel)
    (hbefore : ∀ i, 1 ≤ i → i < k →
      ∃ l, pages i = PageResp.arr l ∧ l ≠ [])
    (hstop : pages k = PageResp.nonArr) :
    fetchTags pages fuel = some (concatNames pages 1 (k - 1), pageList 1 k) := by
  have hb : ∀ i, 1 ≤ i → i < k → pageIsStop (pages i) = false := by
    intro i hi1 hi2
    rcases hbefore i hi1 hi2 with ⟨l, hl, hne⟩
    rw [hl]
    cases l with
    | nil => exact absurd rfl hne
    | cons a as => rfl
  have hs : pageIsStop (pages k) = true := by rw [hstop]; rfl
  have h := fetchTagsLoop_spec pages k hs fuel 1 hk (by omega) hb
  rw [fetchTags, h]
  have hk1 : k - 1 + 1 = k := by omega
  rw [hk1]

theorem C10_non_array_stops_witness :
    fetchTags
      (fun p => match p with
        | 1 => PageResp.arr ("v1" :: "v2" :: [])
        | 2 => PageResp.nonArr
        | _ => PageResp.arr []) 9 =
      some ("v1" :: "v2" :: [], 1 :: 2 :: []) :=
  (C10_non_array_stops
    (fun p => match p with
      | 1 => PageResp.arr ("v1" :: "v2" :: [])
      | 2 => PageResp.nonArr
      | _ => PageResp.arr []) 2 9 (by decide) (by decide)
    (fun i hi1 hi2 => by
      interval_cases i
      exact ⟨"v1" :: "v2" :: [], rfl, by decide⟩)
    rfl).trans (by rfl)

/-- Embedding of the JavaScript string method includes on strings. -/
def strIncludes (s pat : String) : Bool :=
  listContainsSub s.toList pat.toList

/-- The failure-text pattern recognized on source line 61. -/
def dubiousPat : String := "dubious ownership"

/-- The message prefixed to surfaced failures on source line 75. -/
def checkoutFailMsg : String := "Git checkout failed: "

/-- The outcomes of the external commands run by `checkoutTag`, plus the
user's answer to the modal remediation prompt: the results of the tag
fetch, of the first checkout, of the safe.directory config command and of
the retried checkout, each an error message or success. -/
structure GitEnv where
  fetchRes : Except String Unit
  checkoutRes : Except String Unit
  userConfirms : Bool
  configRes : Except String Unit
  retryRes : Except String Unit

/-- The external commands `checkoutTag` can run: the tag fetch, a checkout
and the safe.directory remediation. -/
inductive GitCmd
  | gitFetch
  | gitCheckout
  | gitSafeDir
deriving DecidableEq

/-- Embedding of the catch block of `checkoutTag` (source lines 59–75):
given the caught message and the trace so far, run the remediation and the
single retry when the message holds the dubious-ownership pattern and the
user confirms, otherwise rethrow the wrapped message. -/
def handleCheckoutErr (env : GitEnv) (m : String) (tr : List GitCmd) :
    Except String Unit × List GitCmd :=
  if strIncludes m dubiousPat then
    if env.userConfirms then
      match env.configRes with
      | Except.error m2 => (Except.error m2, tr ++ [GitCmd.gitSafeDir])
      | Except.ok _ =>
        match env.retryRes with
        | Except.error m2 =>
          (Except.error m2, tr ++ [GitCmd.gitSafeDir, GitCmd.gitCheckout])
        | Except.ok _ =>
          (Except.ok (), tr ++ [GitCmd.gitSafeDir, GitCmd.gitCheckout])
    else (Except.error (checkoutFailMsg ++ m), tr)
  else (Except.error (checkoutFailMsg ++ m), tr)

/-- Embedding of `checkoutTag` (source lines 51–77) over the outcomes of
its external commands, returning the result together with the trace of
commands run; the workspace is taken as open. -/
def checkoutTag (env : GitEnv) : Except String Unit × List GitCmd :=
  match env.fetchRes with
  | Except.error m => handleCheckoutErr env m [GitCmd.gitFetch]
  | Except.ok _ =>
    match env.checkoutRes with
    | Except.error m =>
      handleCheckoutErr env m [GitCmd.gitFetch, GitCmd.gitCheckout]
    | Except.ok _ => (Except.ok (), [GitCmd.gitFetch, GitCmd.gitCheckout])

/-- A checkout failure message holding the dubious-ownership pattern. -/
def dubiousMsg : String := "fatal: detected dubious ownership in repository"

/-- The command outcomes in which the first checkout fails with the
dubious-ownership message and the user declines the prompt. -/
def envDecline : GitEnv :=
  ⟨Except.ok (), Except.error dubiousMsg, false, Except.ok (), Except.ok ()⟩

/-- C8 fails as stated: a checkout failure whose text holds the
dubious-ownership pattern triggers no remediation and no retry when the
user dismisses the modal prompt — the error is surfaced instead, so the
pattern alone does not force exactly one remediation call. -/
theorem C8_counterexample :
    strIncludes dubiousMsg dubiousPat = true ∧
    checkoutTag envDecline =
      (Except.error (checkoutFailMsg ++ dubiousMsg),
        GitCmd.gitFetch :: GitCmd.gitCheckout :: []) ∧
    ((checkoutTag envDecline).2.count GitCmd.gitSafeDir = 0 ∧
      (checkoutTag envDecline).2.count GitCmd.gitCheckout = 1) :=
  ⟨rfl, rfl, rfl, rfl⟩

/-- C8 amended: after a successful tag fetch, a first-checkout failure
whose text holds the dubious-ownership pattern triggers, once the user
confirms the prompt and the config command succeeds, exactly one
remediation call followed by exactly one retry of the checkout and nothing
further; a failure without the pattern, or a declined prompt, triggers zero
remediation calls and zero retries and surfaces the wrapped error. -/
theorem C8_remediation_retry (env : GitEnv) (m : String)
    (hf : env.fetchRes = Except.ok ())
    (hc : env.checkoutRes = Except.error m)
    (hcfg : env.configRes = Except.ok ()) :
    (strIncludes m dubiousPat = true → env.userConfirms = true →
      (checkoutTag env).2 =
        GitCmd.gitFetch :: GitCmd.gitCheckout :: GitCmd.gitSafeDir ::
          GitCmd.gitCheckout :: [] ∧
      (checkoutTag env).2.count GitCmd.gitSafeDir = 1 ∧
      (checkoutTag env).2.count GitCmd.gitCheckout = 2) ∧
    (strIncludes m dubiousPat = false →
      checkoutTag env =
        (Except.error (checkoutFailMsg ++ m),
          GitCmd.gitFetch :: GitCmd.gitCheckout :: [])) ∧
    (env.userConfirms = false →
      checkoutTag env =
        (Except.error (checkoutFailMsg ++ m),
          GitCmd.gitFetch :: GitCmd.gitCheckout :: [])) := by
  obtain ⟨f, c, u, cfg, r⟩ := env
  simp only [] at hf hc hcfg
  subst hf
  subst hc
  subst hcfg
  refine ⟨?_, ?_, ?_⟩
  · intro hdub hok
    simp only [] at hok
    subst hok
    have htr : (checkoutTag
        ⟨Except.ok (), Except.error m, true, Except.ok (), r⟩).2 =
        GitCmd.gitFetch :: GitCmd.gitCheckout :: GitCmd.gitSafeDir ::
          GitCmd.gitCheckout :: [] := by
      cases r with
      | error m2 => simp [checkoutTag, handleCheckoutErr, hdub]
      | ok u2 => simp [checkoutTag, handleCheckoutErr, hdub]
    exact ⟨htr, by rw [htr]; decide, by rw [htr]; decide⟩
  · intro hdub
    simp [checkoutTag, handleCheckoutErr, hdub]
  · intro hok
    simp only [] at hok
    subst hok
    cases hdub : strIncludes m dubiousPat <;>
      simp [checkoutTag, handleCheckoutErr, hdub]

/-- The command outcomes in which the first checkout fails with the
dubious-ownership message and the user confirms the prompt. -/
def envConfirm : GitEnv :=
  ⟨Except.ok (), Except.error dubiousMsg, true, Except.ok (), Except.ok ()⟩

theorem C8_remediation_retry_witness :
    (checkoutTag envConfirm).2 =
      GitCmd.gitFetch :: GitCmd.gitCheckout :: GitCmd.gitSafeDir ::
        GitCmd.gitCheckout :: [] ∧
    (checkoutTag envConfirm).2.count GitCmd.gitSafeDir = 1 ∧
    (checkoutTag envConfirm).2.count GitCmd.gitCheckout = 2 :=
  (C8_remediation_retry envConfirm dubiousMsg rfl rfl rfl).1 (by rfl) rfl
